import Mathlib

/-!
Shallow embedding of the image-algorithms library (resampling and Gaussian
blur) and proofs about its index mapping, kernel construction, assertion
behavior and boundary handling.

Modelling conventions:
* C++ `int` is modelled as `ℤ`; pixel/channel values (source element type
  `T ∈ {uint8, int32, float}`) are stored as `ℚ`, and all `float`/`double`
  intermediate arithmetic is modelled exactly over `ℚ`.
* `std::lround` (round half away from zero) is `roundAway`.
* `std::exp` is an abstract parameter `e : ℚ → ℚ`; theorems that need it
  assume only its positivity (`∀ x, 0 < e x`), which `exp` satisfies.
* A fatal assertion `rassert(cond, tag)` makes the function return
  `Except.error tag`; normal completion is `Except.ok`.
* Accumulation loops (`acc += ...`) are `List.foldl` over the iteration
  range, in source order.
-/

/-- `std::lround`: round to nearest integer, ties away from zero. -/
def roundAway (q : ℚ) : ℤ :=
  if 0 ≤ q then ⌊q + 1/2⌋ else ⌈q - 1/2⌉

/-- `clampi(v, lo, hi) = std::max(lo, std::min(hi, v))` (downsample.cpp:13-15,
blur.cpp:15-17). -/
def clampi (v lo hi : ℤ) : ℤ :=
  max lo (min hi v)

/-- `map_index_round(i, n, m)` (downsample.cpp:17-23): map `i ∈ [0..n-1]`
to `[0..m-1]` by `lround(i·(m-1)/(n-1))` clamped to `[0, m-1]`. -/
def map_index_round (i n m : ℤ) : ℤ :=
  let pos : ℚ := ((i : ℚ) * ((m - 1 : ℤ) : ℚ)) / ((n - 1 : ℤ) : ℚ)
  clampi (roundAway pos) 0 (m - 1)

/-- `safe_mid_index(m)` (downsample.cpp:25-28): `(m <= 0) ? 0 : m / 2`.
For `m ≥ 1` integer division `/` agrees with C++ truncating division. -/
def safe_mid_index (m : ℤ) : ℤ :=
  if m ≤ 0 then 0 else m / 2

/-- `Image<T>`: width, height, channel count, and element data addressed by
`(row, col, channel)`; values of the element type are stored as `ℚ`.
The data field is a total function; the algorithms only read it at indices
inside `[0,height-1] × [0,width-1] × [0,channels-1]`. -/
@[ext]
structure QImage where
  width : ℤ
  height : ℤ
  channels : ℤ
  data : ℤ → ℤ → ℤ → ℚ

/-- `Color<T>`: a 1- or 3-channel tuple, addressed by channel index. -/
@[ext]
structure QColor where
  channels : ℤ
  val : ℤ → ℚ

instance : Inhabited QColor := ⟨⟨0, fun _ => 0⟩⟩

/-- `downsample(const Image<T>&, int w, int h)` (downsample.cpp:32-64).
The three `rassert`s become `Except.error` with the source's tags; the
double write loop becomes the output's `data` function (each output pixel
is written exactly once, and the `ch == 1` / `ch == 3` branches both copy
every channel `c < ch` of the chosen source pixel). -/
def downsampleImage (image : QImage) (w h : ℤ) : Except Nat QImage :=
  if ¬ (w > 0 ∧ h > 0) then .error 781234981
  else if ¬ (image.width > 0 ∧ image.height > 0) then .error 781234982
  else if ¬ (image.channels = 1 ∨ image.channels = 3) then .error 781234983
  else
    let sx_center := safe_mid_index image.width
    let sy_center := safe_mid_index image.height
    .ok ⟨w, h, image.channels, fun y x c =>
      let sy := if h = 1 then sy_center else map_index_round y h image.height
      let sx := if w = 1 then sx_center else map_index_round x w image.width
      image.data sy sx c⟩

/-- `downsample(const std::vector<Color<T>>&, int n)` (downsample.cpp:66-88).
Element type is generic: the sequence overload only copies elements.
Unchecked `colors[idx]` is modelled by `getD` with the default element. -/
def downsampleSeq {α : Type} [Inhabited α] (colors : List α) (n : ℤ) : List α :=
  if n ≤ 0 then []
  else if colors.isEmpty then []
  else
    let m : ℤ := colors.length
    if n ≥ m then colors
    else if n = 1 then [colors.getD (m / 2).toNat default]
    else (List.range n.toNat).map fun (i : ℕ) =>
      colors.getD (map_index_round (i : ℤ) n m).toNat default

/-- `Kernel1D` (blur.cpp:19-22): weight array and radius. -/
structure Kernel1D where
  w : List ℚ
  r : ℤ

/-- `const float s = std::max(0.001f, sigma)` (blur.cpp:28). -/
def gaussS (sigma : ℚ) : ℚ := max (1/1000) sigma

/-- `k.r = std::max(0, (int)std::ceil(3.0f * s))` (blur.cpp:29). -/
def gaussRadius (sigma : ℚ) : ℤ := max 0 ⌈3 * gaussS sigma⌉

/-- The unnormalized weight written at array index `j` by the loop
`for i in [-R..R]: k.w[i+R] = exp(-(i*i)*inv2s2)` (blur.cpp:36-40): at
`j = i + R` the offset is `i = j - R`. -/
def gaussWeight (e : ℚ → ℚ) (sigma : ℚ) (j : ℕ) : ℚ :=
  e (-(((j : ℤ) - gaussRadius sigma) * ((j : ℤ) - gaussRadius sigma) : ℤ) *
    (1 / (2 * gaussS sigma * gaussS sigma)))

/-- The unnormalized weight array of size `2R+1` (blur.cpp:32-40). -/
def gaussRaw (e : ℚ → ℚ) (sigma : ℚ) : List ℚ :=
  (List.range (2 * gaussRadius sigma + 1).toNat).map (gaussWeight e sigma)

/-- `makeGaussianKernel(sigma)` (blur.cpp:24-45), parametric in the
exponential `e` (modelling `std::exp`). The running `sum +=` of the fill
loop is a `foldl` over the weight array; the final loop divides every
weight by the sum when it is positive. -/
def makeGaussianKernel (e : ℚ → ℚ) (sigma : ℚ) : Kernel1D :=
  if ¬ (sigma > 0) then ⟨[], 0⟩
  else
    let sum : ℚ := (gaussRaw e sigma).foldl (· + ·) 0
    if sum > 0 then ⟨(gaussRaw e sigma).map fun v => v / sum, gaussRadius sigma⟩
    else ⟨gaussRaw e sigma, gaussRadius sigma⟩

/-- Element types the blur is instantiated at (blur.cpp:47-65,193-198). -/
inductive ElemT
  | u8
  | i32
  | f32

/-- `to_f` (blur.cpp:47-51): widening conversion to float. Element values
are already stored as `ℚ` in the model, so it is the identity. -/
def to_f (v : ℚ) : ℚ := v

/-- `std::clamp(v, lo, hi)` on floats, for `lo ≤ hi`. -/
def clampQ (v lo hi : ℚ) : ℚ := max lo (min hi v)

/-- `from_f<T>` (blur.cpp:53-65): conversion from the float accumulator back
to the element type — uint8: clamp to `[0,255]` then `lround`; other integer
types: `lround`; float: unchanged. -/
def from_f : ElemT → ℚ → ℚ
  | .f32, v => v
  | .u8, v => ((roundAway (clampQ v 0 255) : ℤ) : ℚ)
  | .i32, v => ((roundAway v : ℤ) : ℚ)

/-- `blur(const Image<T>&, float strength)` (blur.cpp:69-146). The scratch
buffer `tmp` (written once per `(x,y,c)` by the horizontal pass) is its
defining function; the `C == 1` / `C == 3` branches of each pass perform the
same per-channel accumulation, written here once over the channel index.
Loop index `j ∈ [0..2R]` stands for the source's `dx = j - R ∈ [-R..R]`,
with kernel tap `k.w[dx+R] = k.w[j]`. -/
def blurImage (e : ℚ → ℚ) (et : ElemT) (image : QImage) (strength : ℚ) :
    Except Nat QImage :=
  if ¬ (strength > 0) then .ok image
  else if ¬ (image.width > 0 ∧ image.height > 0) then .error 981234001
  else if ¬ (image.channels = 1 ∨ image.channels = 3) then .error 981234002
  else
    let k := makeGaussianKernel e strength
    if k.r = 0 then .ok image
    else
      let R := k.r
      let W := image.width
      let H := image.height
      let tmp : ℤ → ℤ → ℤ → ℚ := fun x y c =>
        (List.range (2 * R + 1).toNat).foldl
          (fun acc j => acc +
            k.w.getD j 0 * to_f (image.data y (clampi (x + ((j : ℤ) - R)) 0 (W - 1)) c)) 0
      .ok ⟨W, H, image.channels, fun y x c =>
        from_f et ((List.range (2 * R + 1).toNat).foldl
          (fun acc j => acc +
            k.w.getD j 0 * tmp x (clampi (y + ((j : ℤ) - R)) 0 (H - 1)) c) 0)⟩

/-- `blur(const std::vector<Color<T>>&, float strength)` (blur.cpp:148-191).
`tmp[c][i]` is its defining function; `colors[0].channels()` is
`(colors.headD default).channels`; the output loop builds one color per
index with every channel `c < C` converted from `tmp[c][i]`. -/
def blurSeq (e : ℚ → ℚ) (et : ElemT) (colors : List QColor) (strength : ℚ) :
    Except Nat (List QColor) :=
  if ¬ (strength > 0) then .ok colors
  else if colors.isEmpty then .ok []
  else
    let k := makeGaussianKernel e strength
    if k.r = 0 then .ok colors
    else
      let R := k.r
      let n : ℤ := colors.length
      let C := (colors.headD default).channels
      if ¬ (C = 1 ∨ C = 3) then .error 981234003
      else
        let tmp : ℤ → ℤ → ℚ := fun c i =>
          (List.range (2 * R + 1).toNat).foldl
            (fun acc j => acc +
              k.w.getD j 0 *
                to_f ((colors.getD (clampi (i + ((j : ℤ) - R)) 0 (n - 1)).toNat default).val c)) 0
        .ok ((List.range colors.length).map fun (i : ℕ) =>
          ⟨C, fun c => from_f et (tmp c (i : ℤ))⟩)

/-- Modelled from the spec (§4.2, §8 "reference convolution"): separable
Gaussian blur for images as the spec words it — normalized truncated
Gaussian kernel, clamp-to-edge addressing, a horizontal pass into a
full-precision scratch buffer, a vertical pass reading the unrounded
intermediates, and a final conversion to the element type. -/
def referenceBlurImage (e : ℚ → ℚ) (et : ElemT) (image : QImage)
    (strength : ℚ) : QImage :=
  let k := makeGaussianKernel e strength
  let R := k.r
  let scratch : ℤ → ℤ → ℤ → ℚ := fun x y c =>
    ∑ j ∈ Finset.range (2 * R + 1).toNat,
      k.w.getD j 0 * image.data y (clampi (x + ((j : ℤ) - R)) 0 (image.width - 1)) c
  ⟨image.width, image.height, image.channels, fun y x c =>
    from_f et (∑ j ∈ Finset.range (2 * R + 1).toNat,
      k.w.getD j 0 * scratch x (clampi (y + ((j : ℤ) - R)) 0 (image.height - 1)) c)⟩

/-- Modelled from the spec (§4.2 "1D sequence algorithm"): direct per-channel
1D convolution with the same kernel and clamp-to-edge boundary. -/
def referenceBlurSeq (e : ℚ → ℚ) (et : ElemT) (colors : List QColor)
    (strength : ℚ) : List QColor :=
  let k := makeGaussianKernel e strength
  let R := k.r
  let n : ℤ := colors.length
  (List.range colors.length).map fun (i : ℕ) =>
    ⟨(colors.headD default).channels, fun c =>
      from_f et (∑ j ∈ Finset.range (2 * R + 1).toNat,
        k.w.getD j 0 *
          (colors.getD (clampi ((i : ℤ) + ((j : ℤ) - R)) 0 (n - 1)).toNat default).val c)⟩

/-- From the claim's words (C1): output position `i` of a resample from
source size `n` to target size `m` selects source index
`round(i·(n-1)/(m-1))` clamped to `[0, n-1]`, ties rounding half away
from zero. -/
def specResampleIndex (i n m : ℤ) : ℤ :=
  max 0 (min (n - 1) (roundAway ((i : ℚ) * ((n - 1 : ℤ) : ℚ) / ((m - 1 : ℤ) : ℚ))))

/-- The image used to refute C4 as stated: channel count 2 (neither 1
nor 3), positive dimensions. -/
def badImage : QImage := ⟨1, 1, 2, fun _ _ _ => 0⟩

-- ## Helper lemmas

lemma roundAway_intCast (k : ℤ) : roundAway (k : ℚ) = k := by
  unfold roundAway
  rcases le_or_lt 0 (k : ℚ) with h | h
  · rw [if_pos h, show ((k : ℚ) + 1/2) = (1/2 : ℚ) + k by ring, Int.floor_add_int]
    norm_num
  · rw [if_neg (not_le.mpr h), show ((k : ℚ) - 1/2) = (-(1/2) : ℚ) + k by ring,
      Int.ceil_add_int]
    norm_num

lemma map_index_round_zero (n m : ℤ) (hm : 1 ≤ m) : map_index_round 0 n m = 0 := by
  have h : ((0 : ℤ) : ℚ) * ((m - 1 : ℤ) : ℚ) / ((n - 1 : ℤ) : ℚ) = ((0 : ℤ) : ℚ) := by
    push_cast; ring
  show clampi (roundAway (((0 : ℤ) : ℚ) * ((m - 1 : ℤ) : ℚ) / ((n - 1 : ℤ) : ℚ))) 0 (m - 1) = 0
  rw [h, roundAway_intCast]
  unfold clampi
  omega

lemma map_index_round_last (n m : ℤ) (hn : 2 ≤ n) (hm : 1 ≤ m) :
    map_index_round (n - 1) n m = m - 1 := by
  have hne : ((n - 1 : ℤ) : ℚ) ≠ 0 := by
    have h1 : (0 : ℤ) < n - 1 := by omega
    exact_mod_cast h1.ne'
  have h : ((n - 1 : ℤ) : ℚ) * ((m - 1 : ℤ) : ℚ) / ((n - 1 : ℤ) : ℚ) = ((m - 1 : ℤ) : ℚ) := by
    rw [mul_comm, mul_div_assoc, div_self hne, mul_one]
  show clampi (roundAway (((n - 1 : ℤ) : ℚ) * ((m - 1 : ℤ) : ℚ) / ((n - 1 : ℤ) : ℚ))) 0 (m - 1)
    = m - 1
  rw [h, roundAway_intCast]
  unfold clampi
  omega

lemma foldl_add_eq_sum (g : ℕ → ℚ) (n : ℕ) :
    (List.range n).foldl (fun acc j => acc + g j) 0 = ∑ j ∈ Finset.range n, g j := by
  induction n with
  | zero => simp
  | succ k ih =>
    rw [List.range_succ, List.foldl_append, ih, Finset.sum_range_succ]
    simp

lemma getD_map_range {β : Type} (f : ℕ → β) (k i : ℕ) (hi : i < k) (d : β) :
    ((List.range k).map f).getD i d = f i := by
  rw [List.getD_eq_getElem?_getD, List.getElem?_map, List.getElem?_range hi]
  rfl

lemma gaussRadius_pos (sigma : ℚ) : 1 ≤ gaussRadius sigma := by
  unfold gaussRadius
  have hs : (0 : ℚ) < 3 * gaussS sigma := by
    have h1 : (1/1000 : ℚ) ≤ gaussS sigma := le_max_left _ _
    nlinarith
  have h2 := Int.ceil_pos.mpr hs
  omega

lemma gaussSum_eq (e : ℚ → ℚ) (sigma : ℚ) :
    (gaussRaw e sigma).foldl (· + ·) 0
      = ∑ j ∈ Finset.range (2 * gaussRadius sigma + 1).toNat, gaussWeight e sigma j := by
  unfold gaussRaw
  rw [List.foldl_map, foldl_add_eq_sum (gaussWeight e sigma)]

lemma gaussSum_pos (e : ℚ → ℚ) (sigma : ℚ) (he : ∀ x, 0 < e x) :
    0 < ∑ j ∈ Finset.range (2 * gaussRadius sigma + 1).toNat, gaussWeight e sigma j := by
  apply Finset.sum_pos
  · intro i _
    exact he _
  · have hR := gaussRadius_pos sigma
    exact Finset.nonempty_range_iff.mpr (by omega)

lemma makeGaussianKernel_pos_eq (e : ℚ → ℚ) (sigma : ℚ) (hσ : 0 < sigma)
    (he : ∀ x, 0 < e x) :
    makeGaussianKernel e sigma =
      ⟨(gaussRaw e sigma).map fun v =>
          v / ∑ j ∈ Finset.range (2 * gaussRadius sigma + 1).toNat, gaussWeight e sigma j,
        gaussRadius sigma⟩ := by
  unfold makeGaussianKernel
  rw [if_neg (by simpa using hσ)]
  simp only [gaussSum_eq]
  rw [if_pos (gaussSum_pos e sigma he)]

lemma makeGaussianKernel_w_length (e : ℚ → ℚ) (sigma : ℚ) (hσ : 0 < sigma)
    (he : ∀ x, 0 < e x) :
    (makeGaussianKernel e sigma).w.length = (2 * gaussRadius sigma + 1).toNat := by
  rw [makeGaussianKernel_pos_eq e sigma hσ he]
  simp [gaussRaw]

lemma makeGaussianKernel_w_getD (e : ℚ → ℚ) (sigma : ℚ) (hσ : 0 < sigma)
    (he : ∀ x, 0 < e x) (j : ℕ) (hj : j < (2 * gaussRadius sigma + 1).toNat) :
    (makeGaussianKernel e sigma).w.getD j 0
      = gaussWeight e sigma j
          / ∑ i ∈ Finset.range (2 * gaussRadius sigma + 1).toNat, gaussWeight e sigma i := by
  rw [makeGaussianKernel_pos_eq e sigma hσ he]
  show ((gaussRaw e sigma).map fun v =>
      v / ∑ i ∈ Finset.range (2 * gaussRadius sigma + 1).toNat, gaussWeight e sigma i).getD j 0
    = _
  rw [gaussRaw, List.map_map, getD_map_range _ _ _ hj]
  rfl

lemma gaussWeight_symm (e : ℚ → ℚ) (sigma : ℚ) (j : ℕ)
    (hj : j < (2 * gaussRadius sigma + 1).toNat) :
    gaussWeight e sigma ((2 * gaussRadius sigma + 1).toNat - 1 - j) = gaussWeight e sigma j := by
  unfold gaussWeight
  have hR : 0 ≤ gaussRadius sigma := le_max_left _ _
  have hKz : ((2 * gaussRadius sigma + 1).toNat : ℤ) = 2 * gaussRadius sigma + 1 :=
    Int.toNat_of_nonneg (by omega)
  have hcast : (((2 * gaussRadius sigma + 1).toNat - 1 - j : ℕ) : ℤ)
      = 2 * gaussRadius sigma - j := by
    omega
  rw [hcast]
  have harg : (2 * gaussRadius sigma - (j : ℤ) - gaussRadius sigma) *
        (2 * gaussRadius sigma - (j : ℤ) - gaussRadius sigma)
      = ((j : ℤ) - gaussRadius sigma) * ((j : ℤ) - gaussRadius sigma) := by
    ring
  rw [harg]

lemma makeGaussianKernel_w_sum (e : ℚ → ℚ) (sigma : ℚ) (hσ : 0 < sigma)
    (he : ∀ x, 0 < e x) :
    (makeGaussianKernel e sigma).w.sum = 1 := by
  rw [makeGaussianKernel_pos_eq e sigma hσ he]
  show ((gaussRaw e sigma).map fun v =>
      v / ∑ i ∈ Finset.range (2 * gaussRadius sigma + 1).toNat, gaussWeight e sigma i).sum = 1
  rw [gaussRaw, List.map_map]
  have hlist : ((List.range (2 * gaussRadius sigma + 1).toNat).map
      ((fun v => v / ∑ i ∈ Finset.range (2 * gaussRadius sigma + 1).toNat, gaussWeight e sigma i)
        ∘ gaussWeight e sigma)).sum
      = ∑ j ∈ Finset.range (2 * gaussRadius sigma + 1).toNat,
          gaussWeight e sigma j
            / ∑ i ∈ Finset.range (2 * gaussRadius sigma + 1).toNat, gaussWeight e sigma i := by
    rfl
  rw [hlist, ← Finset.sum_div, div_self (gaussSum_pos e sigma he).ne']

lemma makeGaussianKernel_r_eq (e : ℚ → ℚ) (sigma : ℚ) (hσ : 0 < sigma) :
    (makeGaussianKernel e sigma).r = gaussRadius sigma := by
  simp only [makeGaussianKernel]
  rw [if_neg (by simpa using hσ)]
  split <;> rfl

lemma blurImage_eq_reference (e : ℚ → ℚ) (et : ElemT) (image : QImage) (strength : ℚ)
    (hs : 0 < strength) (hW : 0 < image.width) (hH : 0 < image.height)
    (hC : image.channels = 1 ∨ image.channels = 3) :
    blurImage e et image strength = .ok (referenceBlurImage e et image strength) := by
  have hr : ¬ ((makeGaussianKernel e strength).r = 0) := by
    rw [makeGaussianKernel_r_eq e strength hs]
    have := gaussRadius_pos strength
    omega
  simp only [blurImage, referenceBlurImage]
  rw [if_neg (not_not_intro hs), if_neg (not_not_intro ⟨hW, hH⟩), if_neg (not_not_intro hC),
    if_neg hr]
  refine congrArg Except.ok (QImage.ext rfl rfl rfl ?_)
  funext y x c
  simp only [to_f, foldl_add_eq_sum]

lemma blurSeq_eq_reference (e : ℚ → ℚ) (et : ElemT) (colors : List QColor) (strength : ℚ)
    (hs : 0 < strength) (hne : colors ≠ [])
    (hC : (colors.headD default).channels = 1 ∨ (colors.headD default).channels = 3) :
    blurSeq e et colors strength = .ok (referenceBlurSeq e et colors strength) := by
  have hr : ¬ ((makeGaussianKernel e strength).r = 0) := by
    rw [makeGaussianKernel_r_eq e strength hs]
    have := gaussRadius_pos strength
    omega
  simp only [blurSeq, referenceBlurSeq]
  rw [if_neg (not_not_intro hs), if_neg (by simp [hne]), if_neg hr, if_neg (not_not_intro hC)]
  refine congrArg Except.ok ?_
  refine List.map_congr_left ?_
  intro i _
  refine QColor.ext rfl ?_
  funext c
  simp only [to_f, foldl_add_eq_sum]

lemma downsampleSeq_nonpos {α : Type} [Inhabited α] (colors : List α) (n : ℤ)
    (h : n ≤ 0) : downsampleSeq colors n = [] := by
  simp only [downsampleSeq]
  rw [if_pos h]

lemma downsampleSeq_nil {α : Type} [Inhabited α] (n : ℤ) :
    downsampleSeq ([] : List α) n = [] := by
  simp [downsampleSeq]

lemma downsampleSeq_passthrough {α : Type} [Inhabited α] (colors : List α) (n : ℤ)
    (h : (colors.length : ℤ) ≤ n) : downsampleSeq colors n = colors := by
  simp only [downsampleSeq]
  rcases le_or_lt n 0 with h0 | h0
  · rw [if_pos h0]
    have : colors.length = 0 := by omega
    exact (List.eq_nil_of_length_eq_zero this).symm
  · rw [if_neg (by omega)]
    rcases eq_or_ne colors [] with hnil | hnil
    · rw [if_pos (by simp [hnil])]
      exact hnil.symm
    · rw [if_neg (by simp [hnil]), if_pos (by exact_mod_cast h)]

lemma downsampleSeq_one {α : Type} [Inhabited α] (colors : List α)
    (h : 1 ≤ colors.length) :
    downsampleSeq colors 1 = [colors.getD (colors.length / 2) default] := by
  simp only [downsampleSeq]
  rw [if_neg (by omega)]
  rw [if_neg (by simp [List.ne_nil_of_length_pos h])]
  rcases eq_or_lt_of_le h with h1 | h1
  · rw [if_pos (by omega)]
    rcases List.exists_of_length_succ colors (by omega : colors.length = 0 + 1) with ⟨a, l, rfl⟩
    have hl : l = [] := by simpa using h1.symm
    subst hl
    simp
  · rw [if_neg (by omega), if_pos trivial]
    congr 1

lemma downsampleSeq_resample {α : Type} [Inhabited α] (colors : List α) (n : ℤ)
    (h2 : 2 ≤ n) (hlt : n < (colors.length : ℤ)) :
    downsampleSeq colors n = (List.range n.toNat).map fun (i : ℕ) =>
      colors.getD (map_index_round (i : ℤ) n (colors.length : ℤ)).toNat default := by
  simp only [downsampleSeq]
  rw [if_neg (by omega), if_neg (by simp [List.ne_nil_of_length_pos (by omega : 0 < colors.length)]),
    if_neg (by omega), if_neg (by omega)]

lemma downsampleImage_ok (image : QImage) (w h : ℤ) (hw : 0 < w) (hh : 0 < h)
    (hW : 0 < image.width) (hH : 0 < image.height)
    (hC : image.channels = 1 ∨ image.channels = 3) :
    downsampleImage image w h = .ok ⟨w, h, image.channels, fun y x c =>
      image.data
        (if h = 1 then safe_mid_index image.height else map_index_round y h image.height)
        (if w = 1 then safe_mid_index image.width else map_index_round x w image.width) c⟩ := by
  simp only [downsampleImage]
  rw [if_neg (not_not_intro ⟨hw, hh⟩), if_neg (not_not_intro ⟨hW, hH⟩), if_neg (not_not_intro hC)]

/-- C1: output position `i` of a resample from source size `n ≥ 2` to target
size `m ≥ 2` selects the source element at `round(i·(n-1)/(m-1))` clamped to
`[0, n-1]`, ties away from zero; for 2D images the axes are mapped
independently and every channel is copied from that same source pixel. -/
theorem resample_selects_rounded_index :
    (∀ i tgt src : ℤ, map_index_round i tgt src = specResampleIndex i src tgt) ∧
    (∀ (colors : List QColor) (n : ℤ), 2 ≤ n → n < (colors.length : ℤ) →
      ∀ i : ℕ, i < n.toNat →
        (downsampleSeq colors n).getD i default
          = colors.getD (specResampleIndex (i : ℤ) (colors.length : ℤ) n).toNat default) ∧
    (∀ (image : QImage) (w h : ℤ), 2 ≤ w → 2 ≤ h →
      2 ≤ image.width → 2 ≤ image.height →
      (image.channels = 1 ∨ image.channels = 3) →
      ∃ out, downsampleImage image w h = Except.ok out ∧
        out.width = w ∧ out.height = h ∧ out.channels = image.channels ∧
        ∀ y x c : ℤ, out.data y x c
          = image.data (specResampleIndex y image.height h)
              (specResampleIndex x image.width w) c) := by
  refine ⟨fun i tgt src => rfl, ?_, ?_⟩
  · intro colors n h2 hlt i hi
    rw [downsampleSeq_resample colors n h2 hlt, getD_map_range _ _ _ hi]
    rfl
  · intro image w h hw hh hW hH hC
    refine ⟨_, downsampleImage_ok image w h (by omega) (by omega) (by omega) (by omega) hC,
      rfl, rfl, rfl, ?_⟩
    intro y x c
    dsimp only
    rw [if_neg (by omega : ¬ h = 1), if_neg (by omega : ¬ w = 1)]
    rfl

theorem resample_selects_rounded_index_witness :
    (downsampleSeq [(⟨1, fun _ => 5⟩ : QColor), ⟨1, fun _ => 7⟩, ⟨1, fun _ => 9⟩] 2).getD 1
        default
      = [(⟨1, fun _ => 5⟩ : QColor), ⟨1, fun _ => 7⟩, ⟨1, fun _ => 9⟩].getD
          (specResampleIndex 1 3 2).toNat default :=
  resample_selects_rounded_index.2.1 _ 2 (by norm_num) (by norm_num) 1 (by decide)

/-- C3: resampling a source of size `n ≥ 2` to target size `m ≥ 2` maps
output index 0 to source index 0 and output index `m-1` to source index
`n-1`; the first and last output elements equal the first and last source
elements exactly. -/
theorem resample_preserves_endpoints :
    (∀ n m : ℤ, 2 ≤ n → 2 ≤ m →
      map_index_round 0 n m = 0 ∧ map_index_round (n - 1) n m = m - 1) ∧
    (∀ (colors : List QColor) (n : ℤ), 2 ≤ n → 2 ≤ colors.length →
      (downsampleSeq colors n).getD 0 default = colors.getD 0 default ∧
      (downsampleSeq colors n).getD ((downsampleSeq colors n).length - 1) default
        = colors.getD (colors.length - 1) default) := by
  constructor
  · intro n m hn hm
    exact ⟨map_index_round_zero n m (by omega), map_index_round_last n m hn (by omega)⟩
  · intro colors n hn hm
    rcases le_or_lt (colors.length : ℤ) n with hpass | hlt
    · rw [downsampleSeq_passthrough colors n hpass]
      exact ⟨rfl, rfl⟩
    · rw [downsampleSeq_resample colors n hn hlt]
      have hlen : ((List.range n.toNat).map fun (i : ℕ) =>
          colors.getD (map_index_round (i : ℤ) n (colors.length : ℤ)).toNat default).length
          = n.toNat := by
        simp
      constructor
      · rw [getD_map_range _ _ _ (by omega : 0 < n.toNat)]
        rw [show ((0 : ℕ) : ℤ) = 0 from rfl, map_index_round_zero n colors.length (by omega)]
        rfl
      · rw [hlen, getD_map_range _ _ _ (by omega : n.toNat - 1 < n.toNat)]
        rw [show ((n.toNat - 1 : ℕ) : ℤ) = n - 1 by omega,
          map_index_round_last n colors.length hn (by omega)]
        congr 1
        omega

theorem resample_preserves_endpoints_witness :
    (downsampleSeq [(⟨1, fun _ => 4⟩ : QColor), ⟨1, fun _ => 6⟩, ⟨1, fun _ => 8⟩] 2).getD 0
        default
      = [(⟨1, fun _ => 4⟩ : QColor), ⟨1, fun _ => 6⟩, ⟨1, fun _ => 8⟩].getD 0 default :=
  (resample_preserves_endpoints.2 _ 2 (by norm_num) (by norm_num)).1

/-- C5: a resample to target length/axis size exactly 1 yields the single
source element at index `m/2` (integer division), for every source size
`m ≥ 1`; for images, an axis of target size 1 samples the lower-middle
source index on that axis. -/
theorem resample_single_target :
    (∀ colors : List QColor, 1 ≤ colors.length →
      downsampleSeq colors 1 = [colors.getD (colors.length / 2) default]) ∧
    (∀ (image : QImage) (w : ℤ), 0 < w → 0 < image.width → 0 < image.height →
      (image.channels = 1 ∨ image.channels = 3) →
      ∃ out, downsampleImage image w 1 = Except.ok out ∧
        ∀ y x c : ℤ, out.data y x c
          = image.data (image.height / 2)
              (if w = 1 then image.width / 2
               else map_index_round x w image.width) c) := by
  constructor
  · intro colors h
    exact downsampleSeq_one colors h
  · intro image w hw hW hH hC
    refine ⟨_, downsampleImage_ok image w 1 hw (by omega) hW hH hC, ?_⟩
    intro y x c
    dsimp only
    rw [if_pos rfl]
    unfold safe_mid_index
    rw [if_neg (by omega : ¬ image.height ≤ 0)]
    by_cases hw1 : w = 1
    · rw [if_pos hw1, if_pos hw1, if_neg (by omega : ¬ image.width ≤ 0)]
    · rw [if_neg hw1, if_neg hw1]

theorem resample_single_target_witness :
    downsampleSeq [(⟨1, fun _ => 2⟩ : QColor), ⟨1, fun _ => 4⟩, ⟨1, fun _ => 6⟩] 1
      = [[(⟨1, fun _ => 2⟩ : QColor), ⟨1, fun _ => 4⟩, ⟨1, fun _ => 6⟩].getD
          ([(⟨1, fun _ => 2⟩ : QColor), ⟨1, fun _ => 4⟩, ⟨1, fun _ => 6⟩].length / 2) default] :=
  resample_single_target.1 _ (by norm_num)

/-- C6: sequence resampling returns an empty result for target length ≤ 0
and for an empty source, and returns the source unchanged when the target
length is at least the source length (pass-through, never an assertion). -/
theorem resample_sequence_degenerate :
    (∀ (colors : List QColor) (n : ℤ), n ≤ 0 → downsampleSeq colors n = []) ∧
    (∀ n : ℤ, downsampleSeq ([] : List QColor) n = []) ∧
    (∀ (colors : List QColor) (n : ℤ), (colors.length : ℤ) ≤ n →
      downsampleSeq colors n = colors) :=
  ⟨fun colors n h => downsampleSeq_nonpos colors n h,
   fun n => downsampleSeq_nil n,
   fun colors n h => downsampleSeq_passthrough colors n h⟩

theorem resample_sequence_degenerate_witness :
    downsampleSeq [(⟨1, fun _ => 3⟩ : QColor), ⟨1, fun _ => 5⟩] 7
      = [(⟨1, fun _ => 3⟩ : QColor), ⟨1, fun _ => 5⟩] :=
  resample_sequence_degenerate.2.2 _ 7 (by norm_num)

/-- C7: blur with strength ≤ 0 is the identity for both images and color
sequences — the input is returned unchanged, element for element. -/
theorem blur_identity_nonpositive_strength :
    ∀ (e : ℚ → ℚ) (et : ElemT) (image : QImage) (colors : List QColor) (s : ℚ), s ≤ 0 →
      blurImage e et image s = Except.ok image ∧
      blurSeq e et colors s = Except.ok colors := by
  intro e et image colors s hs
  constructor
  · simp only [blurImage]
    rw [if_pos (not_lt.mpr hs)]
  · simp only [blurSeq]
    rw [if_pos (not_lt.mpr hs)]

theorem blur_identity_nonpositive_strength_witness :
    blurImage (fun _ => 1) ElemT.u8 ⟨2, 2, 1, fun _ _ _ => 9⟩ 0
      = Except.ok (⟨2, 2, 1, fun _ _ _ => 9⟩ : QImage) :=
  (blur_identity_nonpositive_strength (fun _ => 1) ElemT.u8 ⟨2, 2, 1, fun _ _ _ => 9⟩
    [⟨1, fun _ => 9⟩] 0 le_rfl).1

/-- C2: for positive strength (kernel radius ≥ 1) and valid non-empty input,
blur equals the reference convolution with the normalized truncated Gaussian
kernel under clamp-to-edge addressing: a direct per-channel 1D convolution
for sequences, and for images a horizontal pass into a full-precision
scratch buffer followed by a vertical pass over the unrounded intermediates,
with the final value converted back to the element type. -/
theorem blur_equals_reference_convolution :
    ∀ (e : ℚ → ℚ) (et : ElemT) (image : QImage) (colors : List QColor) (s : ℚ),
      0 < s → 0 < image.width → 0 < image.height →
      (image.channels = 1 ∨ image.channels = 3) →
      colors ≠ [] →
      ((colors.headD default).channels = 1 ∨ (colors.headD default).channels = 3) →
      blurImage e et image s = Except.ok (referenceBlurImage e et image s) ∧
      blurSeq e et colors s = Except.ok (referenceBlurSeq e et colors s) :=
  fun e et image colors s hs hW hH hC hne hCc =>
    ⟨blurImage_eq_reference e et image s hs hW hH hC,
     blurSeq_eq_reference e et colors s hs hne hCc⟩

theorem blur_equals_reference_convolution_witness :
    blurImage (fun _ => 1) ElemT.f32 ⟨1, 1, 1, fun _ _ _ => 3⟩ 1
        = Except.ok (referenceBlurImage (fun _ => 1) ElemT.f32 ⟨1, 1, 1, fun _ _ _ => 3⟩ 1) ∧
      blurSeq (fun _ => 1) ElemT.f32 [⟨1, fun _ => 3⟩] 1
        = Except.ok (referenceBlurSeq (fun _ => 1) ElemT.f32 [⟨1, fun _ => 3⟩] 1) :=
  blur_equals_reference_convolution (fun _ => 1) ElemT.f32 ⟨1, 1, 1, fun _ _ _ => 3⟩
    [⟨1, fun _ => 3⟩] 1 one_pos (by norm_num) (by norm_num) (Or.inl rfl)
    (by simp) (Or.inl rfl)

/-- C8: for strength σ > 0 the kernel has radius `R = ⌈3·max(0.001, σ)⌉`,
an odd-length weight array of `2R+1` non-negative entries, symmetric about
the center tap, with weights summing to exactly 1 after normalization
(the model computes in exact arithmetic, so the floating-point tolerance
is met exactly). -/
theorem gaussian_kernel_properties :
    ∀ (e : ℚ → ℚ) (σ : ℚ), (∀ x, 0 < e x) → 0 < σ →
      (makeGaussianKernel e σ).r = ⌈3 * max (1/1000) σ⌉ ∧
      (makeGaussianKernel e σ).w.length = (2 * (makeGaussianKernel e σ).r + 1).toNat ∧
      (∀ j : ℕ, j < (makeGaussianKernel e σ).w.length →
        0 ≤ (makeGaussianKernel e σ).w.getD j 0) ∧
      (∀ j : ℕ, j < (makeGaussianKernel e σ).w.length →
        (makeGaussianKernel e σ).w.getD ((makeGaussianKernel e σ).w.length - 1 - j) 0
          = (makeGaussianKernel e σ).w.getD j 0) ∧
      (makeGaussianKernel e σ).w.sum = 1 := by
  intro e σ he hσ
  have hr := makeGaussianKernel_r_eq e σ hσ
  have hlen := makeGaussianKernel_w_length e σ hσ he
  have hRpos := gaussRadius_pos σ
  have hS := gaussSum_pos e σ he
  refine ⟨?_, ?_, ?_, ?_, ?_⟩
  · rw [hr]
    unfold gaussRadius gaussS
    have hc : 1 ≤ ⌈3 * max (1/1000) σ⌉ := by
      have h1 := hRpos
      unfold gaussRadius gaussS at h1
      omega
    omega
  · rw [hlen, hr]
  · intro j hj
    rw [hlen] at hj
    rw [makeGaussianKernel_w_getD e σ hσ he j hj]
    exact le_of_lt (div_pos (he _) hS)
  · intro j hj
    rw [hlen] at hj
    have hj2 : (2 * gaussRadius σ + 1).toNat - 1 - j < (2 * gaussRadius σ + 1).toNat := by
      omega
    rw [hlen, makeGaussianKernel_w_getD e σ hσ he _ hj2,
      makeGaussianKernel_w_getD e σ hσ he j hj, gaussWeight_symm e σ j hj]
  · exact makeGaussianKernel_w_sum e σ hσ he

theorem gaussian_kernel_properties_witness :
    (makeGaussianKernel (fun _ => 1) 1).w.sum = 1 :=
  (gaussian_kernel_properties (fun _ => 1) 1 (fun _ => one_pos) one_pos).2.2.2.2

/-- C9: for every strength > 0 the kernel radius is at least 1 (σ is clamped
to ≥ 0.001 before `R = ⌈3σ⌉`), so the zero-radius identity branches in the
blur overloads (`if k.r == 0`) are unreachable for positive strength. -/
theorem kernel_radius_at_least_one :
    ∀ (e : ℚ → ℚ) (σ : ℚ), 0 < σ →
      1 ≤ (makeGaussianKernel e σ).r ∧ (makeGaussianKernel e σ).r ≠ 0 := by
  intro e σ hσ
  rw [makeGaussianKernel_r_eq e σ hσ]
  have h := gaussRadius_pos σ
  exact ⟨h, by omega⟩

theorem kernel_radius_at_least_one_witness :
    1 ≤ (makeGaussianKernel (fun _ => 1) 1).r ∧ (makeGaussianKernel (fun _ => 1) 1).r ≠ 0 :=
  kernel_radius_at_least_one (fun _ => 1) 1 one_pos

/-- C10: all source accesses stay in bounds under the preconditions —
`clampi` yields a value in `[lo, hi]`, `map_index_round` yields an index in
`[0, m-1]` whenever `m ≥ 1`, `safe_mid_index m` is in `[0, m-1]` whenever
`m ≥ 1`, and every kernel tap index `d + R` for `d ∈ [-R, R]` is inside the
weight array for positive strength. -/
theorem all_accesses_in_bounds :
    (∀ v lo hi : ℤ, lo ≤ hi → lo ≤ clampi v lo hi ∧ clampi v lo hi ≤ hi) ∧
    (∀ i n m : ℤ, 1 ≤ m → 0 ≤ map_index_round i n m ∧ map_index_round i n m ≤ m - 1) ∧
    (∀ m : ℤ, 0 ≤ safe_mid_index m ∧ (1 ≤ m → safe_mid_index m < m)) ∧
    (∀ (e : ℚ → ℚ) (σ : ℚ), (∀ x, 0 < e x) → 0 < σ →
      ∀ d : ℤ, -(makeGaussianKernel e σ).r ≤ d → d ≤ (makeGaussianKernel e σ).r →
        (d + (makeGaussianKernel e σ).r).toNat < (makeGaussianKernel e σ).w.length) := by
  have hclamp : ∀ v lo hi : ℤ, lo ≤ hi → lo ≤ clampi v lo hi ∧ clampi v lo hi ≤ hi := by
    intro v lo hi h
    unfold clampi
    constructor
    · exact le_max_left lo _
    · exact max_le h (min_le_left hi v)
  refine ⟨hclamp, ?_, ?_, ?_⟩
  · intro i n m hm
    have h := hclamp (roundAway (((i : ℚ) * ((m - 1 : ℤ) : ℚ)) / ((n - 1 : ℤ) : ℚ))) 0 (m - 1)
      (by omega)
    exact h
  · intro m
    unfold safe_mid_index
    split
    · omega
    · omega
  · intro e σ he hσ d hd1 hd2
    rw [makeGaussianKernel_w_length e σ hσ he, makeGaussianKernel_r_eq e σ hσ]
    rw [makeGaussianKernel_r_eq e σ hσ] at hd1 hd2
    have h := gaussRadius_pos σ
    omega

theorem all_accesses_in_bounds_witness :
    (0 ≤ clampi 17 0 9 ∧ clampi 17 0 9 ≤ 9) ∧
      (0 ≤ map_index_round 2 4 10 ∧ map_index_round 2 4 10 ≤ 9) :=
  ⟨all_accesses_in_bounds.1 17 0 9 (by decide),
   all_accesses_in_bounds.2.1 2 4 10 (by decide)⟩

/-- C4 counterexample: with strength 0 (≤ 0), `blur` on an image whose
channel count is 2 returns the input image via the strength shortcut and
never reaches a fatal assertion — refuting the claim that the assertion
fires for every strength value. -/
theorem blurImage_no_abort_at_zero_strength :
    badImage.channels = 2 ∧
      blurImage (fun _ => 1) ElemT.u8 badImage 0 = Except.ok badImage ∧
      ∀ t : Nat, blurImage (fun _ => 1) ElemT.u8 badImage 0 ≠ Except.error t := by
  have hok : blurImage (fun _ => 1) ElemT.u8 badImage 0 = Except.ok badImage := by
    simp only [blurImage]
    rw [if_pos (by norm_num)]
  exact ⟨rfl, hok, fun t h => by rw [hok] at h; exact Except.noConfusion h⟩

/-- C4 amended: for every strength > 0, an image with non-positive
dimensions aborts with tag 981234001, and an image with positive dimensions
but channel count not in {1,3} aborts with tag 981234002; for strength ≤ 0
the input is returned before any check (see the counterexample). -/
theorem blurImage_asserts_for_positive_strength :
    ∀ (e : ℚ → ℚ) (et : ElemT) (image : QImage) (s : ℚ), 0 < s →
      (¬ (image.width > 0 ∧ image.height > 0) →
        blurImage e et image s = Except.error 981234001) ∧
      ((image.width > 0 ∧ image.height > 0) →
        ¬ (image.channels = 1 ∨ image.channels = 3) →
        blurImage e et image s = Except.error 981234002) := by
  intro e et image s hs
  constructor
  · intro hbad
    simp only [blurImage]
    rw [if_neg (not_not_intro hs), if_pos hbad]
  · intro hdims hbad
    simp only [blurImage]
    rw [if_neg (not_not_intro hs), if_neg (not_not_intro hdims), if_pos hbad]

theorem blurImage_asserts_for_positive_strength_witness :
    blurImage (fun _ => 1) ElemT.u8 badImage 1 = Except.error 981234002 :=
  (blurImage_asserts_for_positive_strength (fun _ => 1) ElemT.u8 badImage 1 one_pos).2
    (by norm_num [badImage]) (by norm_num [badImage])
